import Mathlib

/-!
Shallow embedding of `extract_colors.py`, a palette-extraction script.

The script defines one function, `get_unique_colors(image_path)`:
it opens the image, converts it to RGB, calls `img.getcolors(maxcolors=1000000)`
(a histogram of `(count, color)` pairs, or `None` when the image has more than
`maxcolors` distinct colors), sorts the histogram by count descending
(Python's `list.sort` with `key=lambda x: x[0], reverse=True`, a stable sort),
then walks the sorted list building `unique_hexes`, a `seen` set and printed
lines: an entry is accepted when its lowercase hex string `#rrggbb`
(`"#{:02x}{:02x}{:02x}".format(...)`) is not in `seen` and its count is `> 100`.
Any exception is caught at top level, `Error: <message>` is printed, and the
function returns Python's implicit `None`.

The embedding models the decoded image as a list of RGB pixels (each channel an
8-bit value, per the image's RGB mode), printing as a list of output lines, and
the Python return value as `Option (List String)` (`none` for the implicit
`None` of the exception path).
-/

/-- An RGB color: three 8-bit channels, as produced by `img.convert("RGB")`. -/
structure Color where
  r : Fin 256
  g : Fin 256
  b : Fin 256
deriving DecidableEq

/-- Hex digits of `n`, most significant first, lowercase, as Python's `"{:x}".format`.
Structural recursion on a fuel argument (`n+1` steps always suffice). -/
def hexRepAux : Nat → Nat → List Char
  | 0, _ => []
  | fuel + 1, n =>
    if n < 16 then [Nat.digitChar n]
    else hexRepAux fuel (n / 16) ++ [Nat.digitChar (n % 16)]

/-- Hex digits of `n`, most significant first, lowercase. -/
def hexRep (n : Nat) : List Char := hexRepAux (n + 1) n

/-- Python's `"{:02x}".format(n)`: lowercase hex, left-padded with `0` to width ≥ 2. -/
def format02x (n : Nat) : String :=
  ⟨List.replicate (2 - (hexRep n).length) '0' ++ hexRep n⟩

/-- The script's `hex_val`: `"#{:02x}{:02x}{:02x}".format(color[0], color[1], color[2])`. -/
def hexOfColor (c : Color) : String :=
  "#" ++ format02x c.r.val ++ format02x c.g.val ++ format02x c.b.val

/-- A lowercase hexadecimal digit, i.e. one of `0-9` or `a-f`. -/
def isLowerHexDigit (ch : Char) : Bool :=
  ('0' ≤ ch && ch ≤ '9') || ('a' ≤ ch && ch ≤ 'f')

/-- The string matches the regular expression `#[0-9a-f]\x7b6\x7d`:
exactly 7 characters, a `#` followed by six lowercase hex digits. -/
def matchesHexPattern (s : String) : Prop :=
  s.length = 7 ∧ s.data.head? = some '#' ∧ s.data.tail.all isLowerHexDigit = true

/-- Distinct colors of a pixel list in first-occurrence order, with an
accumulator of colors already emitted. -/
def distinctAux : List Color → List Color → List Color
  | [], _ => []
  | c :: rest, seen =>
    if c ∈ seen then distinctAux rest seen
    else c :: distinctAux rest (c :: seen)

/-- The distinct colors of a pixel buffer, each listed once. -/
def distinctColors (pixels : List Color) : List Color := distinctAux pixels []

/-- PIL's `img.getcolors(maxcolors)` on the RGB pixel buffer: `none` when the
image has more than `maxcolors` distinct colors, otherwise the list of
`(count, color)` pairs, one per distinct color. -/
def getcolors (pixels : List Color) (maxcolors : Nat) : Option (List (Nat × Color)) :=
  let distinct := distinctColors pixels
  if maxcolors < distinct.length then none
  else some (distinct.map (fun c => (pixels.count c, c)))

/-- Stable descending insertion by count: the new entry goes before the first
entry whose count is `≤` its own (so it lands after all strictly greater
counts and before ties that occur later in the original list). -/
def insertDesc (e : Nat × Color) : List (Nat × Color) → List (Nat × Color)
  | [] => [e]
  | f :: rest => if e.1 < f.1 then f :: insertDesc e rest else e :: f :: rest

/-- The script's `colors.sort(key=lambda x: x[0], reverse=True)`: a stable sort
by count, descending. Python's sort is stable, and a stable sort by a given
key is extensionally unique, so stable insertion sort is the same function. -/
def sortColors : List (Nat × Color) → List (Nat × Color)
  | [] => []
  | e :: rest => insertDesc e (sortColors rest)

/-- The script's loop over the sorted histogram, threading the `seen` set
(modelled as a list with membership semantics). Returns the pair
`(unique_hexes, printed lines)`. An entry is appended (and printed, and its
hex added to `seen`) exactly when its hex is not in `seen` and its count
is `> 100`. -/
def processColors : List (Nat × Color) → List String → List String × List String
  | [], _ => ([], [])
  | (count, color) :: rest, seen =>
    let hex_val := hexOfColor color
    if hex_val ∈ seen then processColors rest seen
    else if 100 < count then
      let res := processColors rest (hex_val :: seen)
      (hex_val :: res.1, (hex_val ++ " (count: " ++ toString count ++ ")") :: res.2)
    else processColors rest seen

/-- The outcome of `Image.open(image_path)` followed by `convert("RGB")`:
either an exception with a message, or the decoded RGB pixel buffer. -/
inductive DecodeOutcome where
  | failure (msg : String)
  | success (pixels : List Color)

/-- Observable result of one call of `get_unique_colors`: the Python return
value (`none` is Python's implicit `None` on the exception path) and the
lines printed to standard output. -/
structure RunResult where
  returnValue : Option (List String)
  output : List String
deriving DecidableEq

/-- The message of the `AttributeError` raised by `colors.sort(...)` when
`getcolors` returned `None`. -/
def noneSortMsg : String := "\x27NoneType\x27 object has no attribute \x27sort\x27"

/-- The embedding of `get_unique_colors`: decode, histogram, sort, filtered
loop, with the top-level `except` turning any raised error into a printed
`Error: <message>` line and an absent return value. -/
def get_unique_colors (dec : DecodeOutcome) : RunResult :=
  match dec with
  | .failure msg => { returnValue := none, output := ["Error: " ++ msg] }
  | .success pixels =>
    match getcolors pixels 1000000 with
    | none => { returnValue := none, output := ["Error: " ++ noneSortMsg] }
    | some colors =>
      let sorted := sortColors colors
      let res := processColors sorted []
      { returnValue := some res.1, output := "Extracted Colors:" :: res.2 }

/-- Two invocations of the extractor on the same decoded input. -/
def runExtractorTwice (dec : DecodeOutcome) : RunResult × RunResult :=
  (get_unique_colors dec, get_unique_colors dec)

/-- Observable result of the `__main__` block: printed lines, the process
exit code, and whether `get_unique_colors` was invoked. -/
structure MainResult where
  output : List String
  exitCode : Nat
  extractorCalled : Bool

/-- The `__main__` block: with fewer than two entries in `sys.argv` print the
usage line and fall off the end (exit code 0, extractor never called);
otherwise run the extractor on `sys.argv[1]`. `decode` models the
environment's decoding of a path. -/
def mainProgram (decode : String → DecodeOutcome) : List String → MainResult
  | _ :: path :: _ =>
    let r := get_unique_colors (decode path)
    { output := r.output, exitCode := 0, extractorCalled := true }
  | _ =>
    { output := ["Usage: python extract_colors.py <image_path>"],
      exitCode := 0, extractorCalled := false }

/-- The palette as the spec describes it: the sorted histogram with only the
`count > 100` filter applied, mapped to hex strings — no dedup step. -/
def specPalette (hist : List (Nat × Color)) : List String :=
  ((sortColors hist).filter (fun e => 100 < e.1)).map (fun e => hexOfColor e.2)

/-- Decode of a number below `2^24` into a color, base 256. -/
def natToColor (n : Nat) : Color :=
  ⟨⟨n % 256, Nat.mod_lt _ (by omega)⟩,
   ⟨n / 256 % 256, Nat.mod_lt _ (by omega)⟩,
   ⟨n / 65536 % 256, Nat.mod_lt _ (by omega)⟩⟩

/-- Re-encoding of a color as a number, base 256. -/
def colorToNat (c : Color) : Nat := c.r.val + 256 * c.g.val + 65536 * c.b.val

/-- A pixel buffer with 1000001 pairwise distinct colors, exceeding the
`maxcolors=1000000` cap of the `getcolors` call. -/
def bigPixels : List Color := (List.range 1000001).map natToColor

/-! ### Hex formatting lemmas -/

theorem data_append (a b : String) : (a ++ b).data = a.data ++ b.data := rfl

theorem format02x_data {n : Nat} (h : n < 256) :
    (format02x n).data = [Nat.digitChar (n / 16), Nat.digitChar (n % 16)] := by
  by_cases h16 : n < 16
  · have h1 : hexRep n = [Nat.digitChar n] := by
      simp [hexRep, hexRepAux, h16]
    have h2 : n / 16 = 0 := Nat.div_eq_of_lt h16
    have h3 : n % 16 = n := Nat.mod_eq_of_lt h16
    simp [format02x, h1, h2, h3, List.replicate]
    rfl
  · obtain ⟨k, rfl⟩ : ∃ k, n = k + 1 := ⟨n - 1, by omega⟩
    have hdiv : (k + 1) / 16 < 16 := by omega
    have h1 : hexRep (k + 1) =
        [Nat.digitChar ((k + 1) / 16), Nat.digitChar ((k + 1) % 16)] := by
      simp [hexRep, hexRepAux, h16, hdiv]
    simp [format02x, h1]

theorem digitChar_hex_range : ∀ m : Fin 16, isLowerHexDigit (Nat.digitChar m.val) = true := by
  decide

theorem digitChar_inj16 : ∀ a b : Fin 16, Nat.digitChar a.val = Nat.digitChar b.val → a = b := by
  decide

theorem digitChar_inj_lt {a b : Nat} (ha : a < 16) (hb : b < 16)
    (h : Nat.digitChar a = Nat.digitChar b) : a = b := by
  have := digitChar_inj16 ⟨a, ha⟩ ⟨b, hb⟩ h
  exact congrArg Fin.val this

theorem hexOfColor_data (c : Color) :
    (hexOfColor c).data =
      ['#', Nat.digitChar (c.r.val / 16), Nat.digitChar (c.r.val % 16),
            Nat.digitChar (c.g.val / 16), Nat.digitChar (c.g.val % 16),
            Nat.digitChar (c.b.val / 16), Nat.digitChar (c.b.val % 16)] := by
  have hr := format02x_data c.r.isLt
  have hg := format02x_data c.g.isLt
  have hb := format02x_data c.b.isLt
  simp [hexOfColor, data_append, hr, hg, hb]

theorem matchesHexPattern_hexOfColor (c : Color) : matchesHexPattern (hexOfColor c) := by
  have hd := hexOfColor_data c
  refine ⟨?_, ?_, ?_⟩
  · show (hexOfColor c).data.length = 7
    rw [hd]
    rfl
  · rw [hd]
    rfl
  · rw [hd]
    have hr1 := digitChar_hex_range ⟨c.r.val / 16, by omega⟩
    have hr2 := digitChar_hex_range ⟨c.r.val % 16, by omega⟩
    have hg1 := digitChar_hex_range ⟨c.g.val / 16, by omega⟩
    have hg2 := digitChar_hex_range ⟨c.g.val % 16, by omega⟩
    have hb1 := digitChar_hex_range ⟨c.b.val / 16, by omega⟩
    have hb2 := digitChar_hex_range ⟨c.b.val % 16, by omega⟩
    simp_all [List.all_cons]

theorem hexOfColor_injective : Function.Injective hexOfColor := by
  intro c d h
  have hd : (hexOfColor c).data = (hexOfColor d).data := congrArg String.data h
  rw [hexOfColor_data, hexOfColor_data] at hd
  simp only [List.cons.injEq, and_true] at hd
  obtain ⟨-, h1, h2, h3, h4, h5, h6⟩ := hd
  have e1 := digitChar_inj_lt (by omega) (by omega) h1
  have e2 := digitChar_inj_lt (by omega) (by omega) h2
  have e3 := digitChar_inj_lt (by omega) (by omega) h3
  have e4 := digitChar_inj_lt (by omega) (by omega) h4
  have e5 := digitChar_inj_lt (by omega) (by omega) h5
  have e6 := digitChar_inj_lt (by omega) (by omega) h6
  obtain ⟨⟨r, hr⟩, ⟨g, hg⟩, ⟨b, hbb⟩⟩ := c
  obtain ⟨⟨r2, hr2⟩, ⟨g2, hg2⟩, ⟨b2, hb2⟩⟩ := d
  simp only at e1 e2 e3 e4 e5 e6
  have : r = r2 := by omega
  have : g = g2 := by omega
  have : b = b2 := by omega
  subst_vars
  rfl

/-! ### Distinct colors and histogram lemmas -/

theorem mem_distinctAux {x : Color} :
    ∀ (l seen : List Color), x ∈ distinctAux l seen ↔ x ∈ l ∧ x ∉ seen
  | [], seen => by simp [distinctAux]
  | c :: rest, seen => by
    by_cases hc : c ∈ seen
    · rw [distinctAux, if_pos hc, mem_distinctAux rest seen]
      constructor
      · rintro ⟨h1, h2⟩
        exact ⟨List.mem_cons_of_mem _ h1, h2⟩
      · rintro ⟨h1, h2⟩
        rcases List.mem_cons.mp h1 with rfl | h1
        · exact absurd hc h2
        · exact ⟨h1, h2⟩
    · rw [distinctAux, if_neg hc]
      rw [List.mem_cons, mem_distinctAux rest (c :: seen)]
      constructor
      · rintro (rfl | ⟨h1, h2⟩)
        · exact ⟨List.mem_cons_self _ _, hc⟩
        · refine ⟨List.mem_cons_of_mem _ h1, fun hx => h2 (List.mem_cons_of_mem _ hx)⟩
      · rintro ⟨h1, h2⟩
        rcases List.mem_cons.mp h1 with rfl | h1
        · exact Or.inl rfl
        · by_cases hxc : x = c
          · exact Or.inl hxc
          · exact Or.inr ⟨h1, by simp [List.mem_cons, hxc, h2]⟩

theorem nodup_distinctAux : ∀ (l seen : List Color), (distinctAux l seen).Nodup
  | [], seen => by simp [distinctAux]
  | c :: rest, seen => by
    by_cases hc : c ∈ seen
    · rw [distinctAux, if_pos hc]
      exact nodup_distinctAux rest seen
    · rw [distinctAux, if_neg hc]
      refine List.Nodup.cons ?_ (nodup_distinctAux rest (c :: seen))
      intro hmem
      exact ((mem_distinctAux rest (c :: seen)).mp hmem).2 (List.mem_cons_self _ _)

theorem distinctAux_eq_self :
    ∀ (l seen : List Color), l.Nodup → (∀ c ∈ l, c ∉ seen) → distinctAux l seen = l
  | [], _, _, _ => rfl
  | c :: rest, seen, hnd, hdisj => by
    have hc : c ∉ seen := hdisj c (List.mem_cons_self _ _)
    rw [distinctAux, if_neg hc]
    congr 1
    refine distinctAux_eq_self rest (c :: seen) hnd.of_cons ?_
    intro x hx
    rw [List.mem_cons]
    rintro (rfl | hmem)
    · exact (List.nodup_cons.mp hnd).1 hx
    · exact hdisj x (List.mem_cons_of_mem _ hx) hmem

theorem distinctAux_replicate_mem :
    ∀ (k : Nat) (c : Color) (seen : List Color), c ∈ seen →
      distinctAux (List.replicate k c) seen = []
  | 0, _, _, _ => rfl
  | k + 1, c, seen, hc => by
    rw [List.replicate_succ, distinctAux, if_pos hc]
    exact distinctAux_replicate_mem k c seen hc

theorem distinctColors_replicate {k : Nat} (hk : 0 < k) (c : Color) :
    distinctColors (List.replicate k c) = [c] := by
  obtain ⟨m, rfl⟩ : ∃ m, k = m + 1 := ⟨k - 1, by omega⟩
  rw [distinctColors, List.replicate_succ, distinctAux]
  rw [if_neg (List.not_mem_nil c)]
  rw [distinctAux_replicate_mem m c [c] (List.mem_cons_self _ _)]

theorem mem_distinctColors {x : Color} {l : List Color} : x ∈ distinctColors l ↔ x ∈ l := by
  rw [distinctColors, mem_distinctAux]
  simp

theorem nodup_distinctColors (l : List Color) : (distinctColors l).Nodup :=
  nodup_distinctAux l []

theorem distinctColors_eq_self {l : List Color} (h : l.Nodup) : distinctColors l = l :=
  distinctAux_eq_self l [] h (by simp)

theorem getcolors_eq_some {pixels : List Color} {hist : List (Nat × Color)}
    (h : getcolors pixels 1000000 = some hist) :
    hist = (distinctColors pixels).map (fun c => (pixels.count c, c)) := by
  rw [getcolors] at h
  by_cases hcap : 1000000 < (distinctColors pixels).length
  · simp [hcap] at h
  · simp [hcap] at h
    exact h.symm

theorem getcolors_eq_none {pixels : List Color}
    (h : 1000000 < (distinctColors pixels).length) :
    getcolors pixels 1000000 = none := by
  rw [getcolors]
  simp [h]

theorem hist_snd_nodup {pixels : List Color} {hist : List (Nat × Color)}
    (h : getcolors pixels 1000000 = some hist) : (hist.map Prod.snd).Nodup := by
  rw [getcolors_eq_some h, List.map_map]
  have : (Prod.snd ∘ fun c => (pixels.count c, c)) = id := rfl
  rw [this, List.map_id]
  exact nodup_distinctColors pixels

theorem mem_hist {pixels : List Color} {hist : List (Nat × Color)}
    (h : getcolors pixels 1000000 = some hist) {e : Nat × Color} (he : e ∈ hist) :
    e.2 ∈ pixels ∧ e.1 = pixels.count e.2 := by
  rw [getcolors_eq_some h] at he
  obtain ⟨c, hc, rfl⟩ := List.mem_map.mp he
  exact ⟨mem_distinctColors.mp hc, rfl⟩

theorem hist_mem_of_mem {pixels : List Color} {hist : List (Nat × Color)}
    (h : getcolors pixels 1000000 = some hist) {c : Color} (hc : c ∈ pixels) :
    (pixels.count c, c) ∈ hist := by
  rw [getcolors_eq_some h]
  exact List.mem_map.mpr ⟨c, mem_distinctColors.mpr hc, rfl⟩

/-! ### Sorting lemmas: permutation, descending order, stability -/

theorem insertDesc_perm (e : Nat × Color) :
    ∀ l : List (Nat × Color), (insertDesc e l).Perm (e :: l)
  | [] => List.Perm.refl _
  | f :: rest => by
    rw [insertDesc]
    by_cases hef : e.1 < f.1
    · rw [if_pos hef]
      exact ((insertDesc_perm e rest).cons f).trans (List.Perm.swap e f rest)
    · rw [if_neg hef]

theorem sortColors_perm : ∀ l : List (Nat × Color), (sortColors l).Perm l
  | [] => List.Perm.refl _
  | e :: rest =>
    (insertDesc_perm e (sortColors rest)).trans ((sortColors_perm rest).cons e)

theorem insertDesc_pairwise {e : Nat × Color} :
    ∀ {l : List (Nat × Color)}, l.Pairwise (fun a b => b.1 ≤ a.1) →
      (insertDesc e l).Pairwise (fun a b => b.1 ≤ a.1)
  | [], _ => by simp [insertDesc]
  | f :: rest, h => by
    rw [insertDesc]
    by_cases hef : e.1 < f.1
    · rw [if_pos hef]
      refine List.Pairwise.cons ?_ (insertDesc_pairwise (h.of_cons))
      intro x hx
      have hx2 := (insertDesc_perm e rest).mem_iff.mp hx
      rcases List.mem_cons.mp hx2 with rfl | hx3
      · exact Nat.le_of_lt hef
      · exact List.rel_of_pairwise_cons h hx3
    · rw [if_neg hef]
      refine List.Pairwise.cons ?_ h
      intro x hx
      rcases List.mem_cons.mp hx with rfl | hx2
      · exact Nat.le_of_not_lt hef
      · exact Nat.le_trans (List.rel_of_pairwise_cons h hx2) (Nat.le_of_not_lt hef)

theorem sortColors_pairwise :
    ∀ l : List (Nat × Color), (sortColors l).Pairwise (fun a b => b.1 ≤ a.1)
  | [] => List.Pairwise.nil
  | _ :: rest => insertDesc_pairwise (sortColors_pairwise rest)

theorem filter_insertDesc (e : Nat × Color) (n : Nat) :
    ∀ l : List (Nat × Color), l.Pairwise (fun a b => b.1 ≤ a.1) →
      (insertDesc e l).filter (fun x => x.1 == n)
        = if e.1 == n then e :: l.filter (fun x => x.1 == n)
          else l.filter (fun x => x.1 == n)
  | [], _ => by
    rw [insertDesc]
    by_cases hen : e.1 == n <;> simp [List.filter, hen]
  | f :: rest, h => by
    rw [insertDesc]
    by_cases hef : e.1 < f.1
    · rw [if_pos hef]
      rw [List.filter_cons, List.filter_cons]
      rw [filter_insertDesc e n rest h.of_cons]
      by_cases hen : e.1 = n
      · have hfn : (f.1 == n) = false := by
          simp only [beq_eq_false_iff_ne, ne_eq]
          omega
        simp only [hfn, Bool.false_eq_true, if_neg, if_false]
      · simp [hen]
    · rw [if_neg hef]
      rw [List.filter_cons]

theorem sortColors_filter (n : Nat) :
    ∀ l : List (Nat × Color),
      (sortColors l).filter (fun x => x.1 == n) = l.filter (fun x => x.1 == n)
  | [] => rfl
  | e :: rest => by
    rw [sortColors, filter_insertDesc e n (sortColors rest) (sortColors_pairwise rest)]
    rw [sortColors_filter n rest]
    rw [List.filter_cons]

/-! ### Loop lemmas -/

theorem processColors_eq_filter_map :
    ∀ (l : List (Nat × Color)) (seen : List String),
      (l.map (fun e => hexOfColor e.2)).Nodup →
      (∀ e ∈ l, hexOfColor e.2 ∉ seen) →
      processColors l seen =
        ((l.filter (fun e => 100 < e.1)).map (fun e => hexOfColor e.2),
         (l.filter (fun e => 100 < e.1)).map
           (fun e => hexOfColor e.2 ++ " (count: " ++ toString e.1 ++ ")"))
  | [], _, _, _ => rfl
  | (count, color) :: rest, seen, hnd, hdisj => by
    have hns : hexOfColor color ∉ seen := hdisj (count, color) (List.mem_cons_self _ _)
    have hhead : hexOfColor color ∉ rest.map (fun e => hexOfColor e.2) :=
      (List.nodup_cons.mp (by simpa using hnd)).1
    rw [processColors]
    simp only [if_neg hns]
    by_cases hcnt : 100 < count
    · rw [if_pos hcnt]
      have hrec := processColors_eq_filter_map rest (hexOfColor color :: seen)
        (by simpa using hnd.of_cons)
        (by
          intro e he
          rw [List.mem_cons]
          rintro (heq | hmem)
          · exact hhead (heq ▸ List.mem_map.mpr ⟨e, he, rfl⟩)
          · exact hdisj e (List.mem_cons_of_mem _ he) hmem)
      rw [hrec]
      rw [List.filter_cons]
      simp [hcnt]
    · rw [if_neg hcnt]
      have hrec := processColors_eq_filter_map rest seen
        (by simpa using hnd.of_cons)
        (fun e he => hdisj e (List.mem_cons_of_mem _ he))
      rw [hrec]
      rw [List.filter_cons]
      simp [hcnt]

theorem processColors_nil_of_le :
    ∀ (l : List (Nat × Color)) (seen : List String),
      (∀ e ∈ l, e.1 ≤ 100) → processColors l seen = ([], [])
  | [], _, _ => rfl
  | (count, color) :: rest, seen, hle => by
    have hc : ¬ 100 < count := by
      have := hle (count, color) (List.mem_cons_self _ _)
      omega
    have hrec := processColors_nil_of_le rest
    rw [processColors]
    by_cases hs : hexOfColor color ∈ seen
    · simp only [if_pos hs]
      exact hrec seen (fun e he => hle e (List.mem_cons_of_mem _ he))
    · simp only [if_neg hs, if_neg hc]
      exact hrec seen (fun e he => hle e (List.mem_cons_of_mem _ he))

theorem mem_processColors_fst :
    ∀ (l : List (Nat × Color)) (seen : List String) (x : String),
      x ∈ (processColors l seen).1 → ∃ e ∈ l, 100 < e.1 ∧ x = hexOfColor e.2
  | [], _, x, hx => by simp [processColors] at hx
  | (count, color) :: rest, seen, x, hx => by
    rw [processColors] at hx
    by_cases hs : hexOfColor color ∈ seen
    · rw [if_pos hs] at hx
      obtain ⟨e, he, hrest⟩ := mem_processColors_fst rest seen x hx
      exact ⟨e, List.mem_cons_of_mem _ he, hrest⟩
    · rw [if_neg hs] at hx
      by_cases hcnt : 100 < count
      · rw [if_pos hcnt] at hx
        rcases List.mem_cons.mp hx with rfl | hx2
        · exact ⟨(count, color), List.mem_cons_self _ _, hcnt, rfl⟩
        · obtain ⟨e, he, hrest⟩ := mem_processColors_fst rest _ x hx2
          exact ⟨e, List.mem_cons_of_mem _ he, hrest⟩
      · rw [if_neg hcnt] at hx
        obtain ⟨e, he, hrest⟩ := mem_processColors_fst rest seen x hx
        exact ⟨e, List.mem_cons_of_mem _ he, hrest⟩

/-! ### Bridging lemmas -/

theorem sorted_hex_nodup {hist : List (Nat × Color)} (h : (hist.map Prod.snd).Nodup) :
    ((sortColors hist).map (fun e => hexOfColor e.2)).Nodup := by
  have hp : ((sortColors hist).map Prod.snd).Perm (hist.map Prod.snd) :=
    (sortColors_perm hist).map Prod.snd
  have h2 : ((sortColors hist).map Prod.snd).Nodup := hp.symm.nodup h
  have h3 := h2.map hexOfColor_injective
  rw [List.map_map] at h3
  exact h3

theorem colorToNat_natToColor {n : Nat} (h : n < 16777216) :
    colorToNat (natToColor n) = n := by
  simp only [colorToNat, natToColor]
  omega

theorem bigPixels_nodup : bigPixels.Nodup := by
  rw [bigPixels]
  refine List.Nodup.map_on ?_ (List.nodup_range _)
  intro x hx y hy hxy
  have hx2 : x < 16777216 := by have := List.mem_range.mp hx; omega
  have hy2 : y < 16777216 := by have := List.mem_range.mp hy; omega
  have hc := congrArg colorToNat hxy
  rwa [colorToNat_natToColor hx2, colorToNat_natToColor hy2] at hc

theorem bigPixels_over_cap : 1000000 < (distinctColors bigPixels).length := by
  rw [distinctColors_eq_self bigPixels_nodup, bigPixels]
  rw [List.length_map, List.length_range]
  omega

/-! ### Claim theorems -/

/-- Claim C1: for a solid-color image of width `W` and height `H` with
`W*H > 100`, `get_unique_colors` returns a palette containing exactly one
entry, the lowercase hex string of that color, and the printed line for it
reports count `W*H`. -/
theorem c1_solid_color_palette (W H : Nat) (c : Color) (h : 100 < W * H) :
    (get_unique_colors (.success (List.replicate (W * H) c))).returnValue
        = some [hexOfColor c] ∧
    (get_unique_colors (.success (List.replicate (W * H) c))).output
        = ["Extracted Colors:",
           hexOfColor c ++ " (count: " ++ toString (W * H) ++ ")"] ∧
    matchesHexPattern (hexOfColor c) := by
  have hd : distinctColors (List.replicate (W * H) c) = [c] :=
    distinctColors_replicate (by omega) c
  have hcount : (List.replicate (W * H) c).count c = W * H :=
    List.count_replicate_self _ _
  have hgc : getcolors (List.replicate (W * H) c) 1000000 = some [(W * H, c)] := by
    rw [getcolors]
    simp [hd, hcount]
  have hsort : sortColors [(W * H, c)] = [(W * H, c)] := rfl
  have hproc : processColors [(W * H, c)] [] =
      ([hexOfColor c], [hexOfColor c ++ " (count: " ++ toString (W * H) ++ ")"]) := by
    rw [processColors]
    rw [if_neg (List.not_mem_nil _), if_pos h]
    rfl
  refine ⟨?_, ?_, matchesHexPattern_hexOfColor c⟩ <;>
    simp only [get_unique_colors, hgc, hsort, hproc]

/-- Claim C1 witness at `W = 101`, `H = 1`. -/
theorem c1_solid_color_palette_witness :
    100 < 101 * 1 ∧
    ((get_unique_colors (.success (List.replicate (101 * 1) (⟨17, 34, 51⟩ : Color)))).returnValue
        = some [hexOfColor ⟨17, 34, 51⟩] ∧
     (get_unique_colors (.success (List.replicate (101 * 1) (⟨17, 34, 51⟩ : Color)))).output
        = ["Extracted Colors:",
           hexOfColor ⟨17, 34, 51⟩ ++ " (count: " ++ toString (101 * 1) ++ ")"] ∧
     matchesHexPattern (hexOfColor ⟨17, 34, 51⟩)) :=
  ⟨by decide, c1_solid_color_palette 101 1 ⟨17, 34, 51⟩ (by decide)⟩

/-- Claim C4: on any input where decoding raises (modelled by
`DecodeOutcome.failure`) or where processing raises (the `colors.sort` call on
the `None` returned by `getcolors` when the distinct-color cap is exceeded),
`get_unique_colors` catches the error, prints a single `Error: <message>` line,
and returns no palette at all. -/
theorem c4_error_path (msg : String) (pixels : List Color)
    (hover : 1000000 < (distinctColors pixels).length) :
    get_unique_colors (.failure msg)
        = { returnValue := none, output := ["Error: " ++ msg] } ∧
    get_unique_colors (.success pixels)
        = { returnValue := none, output := ["Error: " ++ noneSortMsg] } := by
  refine ⟨rfl, ?_⟩
  simp only [get_unique_colors, getcolors_eq_none hover]

/-- Claim C4 witness: a failing decode and an image with 1000001 distinct colors. -/
theorem c4_error_path_witness :
    1000000 < (distinctColors bigPixels).length ∧
    (get_unique_colors (.failure "boom")
        = { returnValue := none, output := ["Error: " ++ "boom"] } ∧
     get_unique_colors (.success bigPixels)
        = { returnValue := none, output := ["Error: " ++ noneSortMsg] }) :=
  ⟨bigPixels_over_cap, c4_error_path "boom" bigPixels bigPixels_over_cap⟩

/-- Claim C6: when the histogram's color keys are unique (as `getcolors`
guarantees), the dedup-by-seen-set step is a no-op: the returned palette
equals the sorted histogram with only the `count > 100` filter applied,
mapped to hex strings, with no entry reordered or dropped. -/
theorem c6_dedup_noop (hist : List (Nat × Color)) (huniq : (hist.map Prod.snd).Nodup) :
    (processColors (sortColors hist) []).1 = specPalette hist := by
  have hp := processColors_eq_filter_map (sortColors hist) []
    (sorted_hex_nodup huniq) (by simp)
  rw [hp]
  rfl

/-- Claim C6 witness on a two-entry histogram with distinct color keys. -/
theorem c6_dedup_noop_witness :
    (([(200, ⟨1, 2, 3⟩), (50, ⟨4, 5, 6⟩)] : List (Nat × Color)).map Prod.snd).Nodup ∧
    (processColors (sortColors [(200, ⟨1, 2, 3⟩), (50, ⟨4, 5, 6⟩)]) []).1
        = specPalette [(200, ⟨1, 2, 3⟩), (50, ⟨4, 5, 6⟩)] :=
  ⟨by decide, c6_dedup_noop [(200, ⟨1, 2, 3⟩), (50, ⟨4, 5, 6⟩)] (by decide)⟩

/-- Claim C7: extraction is deterministic — two runs of `get_unique_colors`
on the same decoded input yield identical return values (ordered palettes)
and identical printed output. -/
theorem c7_deterministic (dec : DecodeOutcome) :
    (runExtractorTwice dec).1.returnValue = (runExtractorTwice dec).2.returnValue ∧
    (runExtractorTwice dec).1.output = (runExtractorTwice dec).2.output ∧
    (runExtractorTwice dec).1 = (runExtractorTwice dec).2 :=
  ⟨rfl, rfl, rfl⟩

/-- Claim C8: invoked with no image-path argument (`len(sys.argv) < 2`), the
program prints the usage message to standard output, never invokes the
extractor, and terminates with success exit code 0. -/
theorem c8_usage_no_arg (decode : String → DecodeOutcome) (argv : List String)
    (h : argv.length < 2) :
    mainProgram decode argv =
      { output := ["Usage: python extract_colors.py <image_path>"],
        exitCode := 0, extractorCalled := false } := by
  match argv with
  | [] => rfl
  | [_] => rfl
  | a :: b :: rest =>
    exfalso
    simp only [List.length_cons] at h
    omega

/-- Claim C8 witness: `sys.argv` holding only the script name. -/
theorem c8_usage_no_arg_witness :
    ([("extract_colors.py" : String)].length < 2) ∧
    mainProgram (fun _ => DecodeOutcome.failure "") ["extract_colors.py"] =
      { output := ["Usage: python extract_colors.py <image_path>"],
        exitCode := 0, extractorCalled := false } :=
  ⟨by decide, c8_usage_no_arg (fun _ => DecodeOutcome.failure "") ["extract_colors.py"] (by decide)⟩

/-- Claim C9: with more than 1,000,000 distinct colors, `getcolors` returns
`None`, the subsequent `.sort` on `None` raises, and the call is routed to
the error path: an `Error: <message>` line is printed and no palette is
produced — the reference errors rather than silently truncating. -/
theorem c9_cap_exceeded_errors (pixels : List Color)
    (hover : 1000000 < (distinctColors pixels).length) :
    getcolors pixels 1000000 = none ∧
    (get_unique_colors (.success pixels)).returnValue = none ∧
    (get_unique_colors (.success pixels)).output = ["Error: " ++ noneSortMsg] := by
  refine ⟨getcolors_eq_none hover, ?_, ?_⟩ <;>
    simp only [get_unique_colors, getcolors_eq_none hover]

/-- Claim C9 witness: the image with 1000001 pairwise distinct colors. -/
theorem c9_cap_exceeded_errors_witness :
    1000000 < (distinctColors bigPixels).length ∧
    (getcolors bigPixels 1000000 = none ∧
     (get_unique_colors (.success bigPixels)).returnValue = none ∧
     (get_unique_colors (.success bigPixels)).output = ["Error: " ++ noneSortMsg]) :=
  ⟨bigPixels_over_cap, c9_cap_exceeded_errors bigPixels bigPixels_over_cap⟩

/-- Claim C2: for every image whose histogram is produced (decode succeeds and
the distinct-color cap is not exceeded), a color is included in the returned
palette if and only if its occurrence count strictly exceeds 100; in
particular, if every color occurs at most 100 times, the palette is empty. -/
theorem c2_threshold_iff (pixels : List Color) (hist : List (Nat × Color))
    (hgc : getcolors pixels 1000000 = some hist) :
    ∃ pal, (get_unique_colors (.success pixels)).returnValue = some pal ∧
      (∀ c : Color, (hexOfColor c ∈ pal ↔ 100 < pixels.count c)) ∧
      ((∀ c ∈ pixels, pixels.count c ≤ 100) → pal = []) := by
  have hnd := hist_snd_nodup hgc
  have hproc := processColors_eq_filter_map (sortColors hist) []
    (sorted_hex_nodup hnd) (by simp)
  refine ⟨(processColors (sortColors hist) []).1, ?_, ?_, ?_⟩
  · simp only [get_unique_colors, hgc]
  · intro c
    rw [hproc]
    constructor
    · intro hmem
      obtain ⟨e, he, heq⟩ := List.mem_map.mp hmem
      rw [List.mem_filter] at he
      obtain ⟨hes, hegt⟩ := he
      have hec : e.2 = c := hexOfColor_injective heq
      have hh := mem_hist hgc ((sortColors_perm hist).mem_iff.mp hes)
      have hgt : 100 < e.1 := by simpa using hegt
      rw [← hec, ← hh.2]
      exact hgt
    · intro hcnt
      have hcpos : c ∈ pixels := List.count_pos_iff.mp (by omega)
      have hmem := hist_mem_of_mem hgc hcpos
      have hsorted := (sortColors_perm hist).mem_iff.mpr hmem
      refine List.mem_map.mpr ⟨(pixels.count c, c), ?_, rfl⟩
      rw [List.mem_filter]
      exact ⟨hsorted, by simpa using hcnt⟩
  · intro hle
    have hz : processColors (sortColors hist) [] = ([], []) := by
      apply processColors_nil_of_le
      intro e he
      have hh := mem_hist hgc ((sortColors_perm hist).mem_iff.mp he)
      have := hle e.2 hh.1
      omega
    rw [hz]

/-- Claim C2 witness on a one-pixel image. -/
theorem c2_threshold_iff_witness :
    getcolors [(⟨1, 2, 3⟩ : Color)] 1000000 = some [(1, ⟨1, 2, 3⟩)] ∧
    (∃ pal, (get_unique_colors (.success [(⟨1, 2, 3⟩ : Color)])).returnValue = some pal ∧
      (∀ c : Color, (hexOfColor c ∈ pal ↔ 100 < ([(⟨1, 2, 3⟩ : Color)].count c))) ∧
      ((∀ c ∈ [(⟨1, 2, 3⟩ : Color)], [(⟨1, 2, 3⟩ : Color)].count c ≤ 100) → pal = [])) :=
  ⟨by decide, c2_threshold_iff [⟨1, 2, 3⟩] [(1, ⟨1, 2, 3⟩)] (by decide)⟩

/-- Claim C3: for every image whose histogram is produced, the palette is the
sorted histogram (threshold-filtered, hex-mapped) where the sorted histogram
is in descending count order, with ties between equal counts kept stable in
the histogram's insertion order. -/
theorem c3_descending_stable (pixels : List Color) (hist : List (Nat × Color))
    (hgc : getcolors pixels 1000000 = some hist) :
    (get_unique_colors (.success pixels)).returnValue
        = some (((sortColors hist).filter (fun e => 100 < e.1)).map
            (fun e => hexOfColor e.2)) ∧
    (sortColors hist).Pairwise (fun a b => b.1 ≤ a.1) ∧
    ∀ n : Nat, (sortColors hist).filter (fun e => e.1 == n)
        = hist.filter (fun e => e.1 == n) := by
  refine ⟨?_, sortColors_pairwise hist, fun n => sortColors_filter n hist⟩
  have hnd := hist_snd_nodup hgc
  have hproc := processColors_eq_filter_map (sortColors hist) []
    (sorted_hex_nodup hnd) (by simp)
  simp only [get_unique_colors, hgc, hproc]

/-- Claim C3 witness: an image with two colors of counts 2 and 1. -/
theorem c3_descending_stable_witness :
    getcolors [(⟨1, 2, 3⟩ : Color), ⟨4, 5, 6⟩, ⟨1, 2, 3⟩] 1000000
        = some [(2, ⟨1, 2, 3⟩), (1, ⟨4, 5, 6⟩)] ∧
    ((get_unique_colors (.success [(⟨1, 2, 3⟩ : Color), ⟨4, 5, 6⟩, ⟨1, 2, 3⟩])).returnValue
        = some (((sortColors [(2, ⟨1, 2, 3⟩), (1, ⟨4, 5, 6⟩)]).filter
            (fun e => 100 < e.1)).map (fun e => hexOfColor e.2)) ∧
     (sortColors [(2, ⟨1, 2, 3⟩), (1, ⟨4, 5, 6⟩)]).Pairwise (fun a b => b.1 ≤ a.1) ∧
     ∀ n : Nat, (sortColors [(2, ⟨1, 2, 3⟩), (1, ⟨4, 5, 6⟩)]).filter (fun e => e.1 == n)
        = ([(2, ⟨1, 2, 3⟩), (1, ⟨4, 5, 6⟩)] : List (Nat × Color)).filter
            (fun e => e.1 == n)) :=
  ⟨by decide,
   c3_descending_stable [⟨1, 2, 3⟩, ⟨4, 5, 6⟩, ⟨1, 2, 3⟩]
     [(2, ⟨1, 2, 3⟩), (1, ⟨4, 5, 6⟩)] (by decide)⟩

/-- Claim C5: every hex string in the palette output is exactly 7 characters,
lowercase, matching `#[0-9a-f]` six times — the RGB channels being 8-bit
values by construction of `Color`. -/
theorem c5_hex_format (pixels : List Color) (pal : List String) (hx : String)
    (hret : (get_unique_colors (.success pixels)).returnValue = some pal)
    (hmem : hx ∈ pal) : matchesHexPattern hx := by
  cases hgc : getcolors pixels 1000000 with
  | none => simp [get_unique_colors, hgc] at hret
  | some hist =>
    simp only [get_unique_colors, hgc, Option.some.injEq] at hret
    rw [← hret] at hmem
    obtain ⟨e, he, hgt, heq⟩ := mem_processColors_fst _ _ hx hmem
    rw [heq]
    exact matchesHexPattern_hexOfColor e.2

set_option maxRecDepth 8000 in
/-- Claim C5 witness on a solid 101-pixel image. -/
theorem c5_hex_format_witness :
    (get_unique_colors (.success (List.replicate 101 (⟨255, 0, 16⟩ : Color)))).returnValue
        = some ["#ff0010"] ∧
    "#ff0010" ∈ ["#ff0010"] ∧
    matchesHexPattern "#ff0010" :=
  ⟨by decide, by decide,
   c5_hex_format (List.replicate 101 ⟨255, 0, 16⟩) ["#ff0010"] "#ff0010"
     (by decide) (by decide)⟩

/-- Claim C10: a successful extraction with no qualifying colors is
distinguishable from failure — when the histogram is produced and no count
exceeds 100, `get_unique_colors` returns the empty list after printing only
the banner, whereas on a caught exception it returns `None`. -/
theorem c10_empty_vs_failure (pixels : List Color) (hist : List (Nat × Color))
    (msg : String)
    (hgc : getcolors pixels 1000000 = some hist)
    (hle : ∀ c ∈ pixels, pixels.count c ≤ 100) :
    (get_unique_colors (.success pixels)).returnValue = some [] ∧
    (get_unique_colors (.success pixels)).output = ["Extracted Colors:"] ∧
    (get_unique_colors (.failure msg)).returnValue = none := by
  have hz : processColors (sortColors hist) [] = ([], []) := by
    apply processColors_nil_of_le
    intro e he
    have hh := mem_hist hgc ((sortColors_perm hist).mem_iff.mp he)
    have := hle e.2 hh.1
    omega
  refine ⟨?_, ?_, rfl⟩ <;> simp only [get_unique_colors, hgc, hz]

/-- Claim C10 witness on a one-pixel image. -/
theorem c10_empty_vs_failure_witness :
    getcolors [(⟨9, 9, 9⟩ : Color)] 1000000 = some [(1, ⟨9, 9, 9⟩)] ∧
    (∀ c ∈ [(⟨9, 9, 9⟩ : Color)], [(⟨9, 9, 9⟩ : Color)].count c ≤ 100) ∧
    ((get_unique_colors (.success [(⟨9, 9, 9⟩ : Color)])).returnValue = some [] ∧
     (get_unique_colors (.success [(⟨9, 9, 9⟩ : Color)])).output = ["Extracted Colors:"] ∧
     (get_unique_colors (.failure "oops")).returnValue = none) :=
  ⟨by decide, by decide,
   c10_empty_vs_failure [⟨9, 9, 9⟩] [(1, ⟨9, 9, 9⟩)] "oops" (by decide) (by decide)⟩
